import Mathlib

/-!
Verification of the size-target search and selection policy of
`src/pdf_reducer.py`.

The algorithmic core of the program is the body of `compress_pdf_to_size`
(lines 84-130): a bounded binary search over the integer JPEG-quality
domain `[10, 95]`, recording the best feasible (`best_under`) and best
infeasible (`best_over`) candidate, followed by a selection step that
prefers `best_under`, falls back to `best_over`, and keeps the original
file when no candidate improves on it.

The builder `build_flattened_pdf(doc, quality, dpi)` is abstracted as a
function `build : Int → Nat` from the probed quality to the measured byte
size of the rebuilt document, exactly as the spec's CandidateBuilder
contract describes it (the document and dpi are fixed for one run).  A
`Candidate` records the quality the builder was invoked at together with
the measured size; the opaque byte payload carried by the Python code is
not needed by any property below.

Python `//` is floor division; since the divisor is the literal `2 > 0`,
Lean's `Int` division (`Int.ediv`, the `/` default) agrees with it on all
inputs, so `q = (low_q + high_q) / 2` is a faithful translation of
line 94.
-/

/-- One builder result: the quality it was probed at and the measured
byte size (`size = len(pdf_bytes)`, line 99).  The spec's data model for
Candidate is `{bytes, size, quality}`; the byte payload is opaque and
elided. -/
structure Candidate where
  quality : Int
  size : Nat
deriving Repr, DecidableEq

/-- The loop state of `compress_pdf_to_size` (lines 84-91): quality
bounds, iteration count, and the two "best" slots.  The Python pair
`best_under` / `best_under_size` is represented by the single option
(the size component is `bestUnderSize` below, which is `0` when the slot
is empty, matching the initialisation `best_under_size = 0` on line 88);
likewise `best_over` / `best_over_size` (both `None` initially). -/
structure SearchState where
  low_q : Int
  high_q : Int
  iterations : Nat
  best_under : Option Candidate
  best_over : Option Candidate
deriving Repr, DecidableEq

/-- Lines 84-91: `low_q, high_q = 10, 95`, `iterations = 0`, empty best
slots. -/
def initState : SearchState :=
  ⟨10, 95, 0, none, none⟩

/-- The Python variable `best_under_size`: `0` while `best_under is None`
(line 88), otherwise the recorded candidate's size (they are updated in
lockstep on lines 105-106). -/
def bestUnderSize (s : SearchState) : Nat :=
  (s.best_under.map Candidate.size).getD 0

/-- One iteration of the `while` body, lines 94-112:
probe `q = (low_q + high_q) // 2`, build, then either record a feasible
candidate when it strictly beats `best_under_size` and move `low_q` up,
or record an infeasible candidate when it is strictly smaller than
`best_over_size` (or that slot is empty) and move `high_q` down.
`iterations` is incremented in both branches (line 95). -/
def searchStep (build : Int → Nat) (target_bytes : Nat) (s : SearchState) : SearchState :=
  let q := (s.low_q + s.high_q) / 2
  let size := build q
  if size ≤ target_bytes then
    { s with
      best_under := if bestUnderSize s < size then some ⟨q, size⟩ else s.best_under
      low_q := q + 1
      iterations := s.iterations + 1 }
  else
    { s with
      best_over :=
        match s.best_over with
        | none => some ⟨q, size⟩
        | some c => if size < c.size then some ⟨q, size⟩ else some c
      high_q := q - 1
      iterations := s.iterations + 1 }

/-- The `while low_q <= high_q and iterations < max_iters` loop
(line 93), with explicit fuel (each pass increments `iterations`, so
fuel `max_iters` always suffices, see `searchGo_stop` below).  Besides
the final state it returns the list of probed qualities, one entry per
invocation of the builder on line 98, in order. -/
def searchGo (build : Int → Nat) (target_bytes : Nat) (max_iters : Nat) :
    Nat → SearchState → SearchState × List Int
  | 0, s => (s, [])
  | fuel + 1, s =>
    if s.low_q ≤ s.high_q ∧ s.iterations < max_iters then
      let r := searchGo build target_bytes max_iters fuel (searchStep build target_bytes s)
      (r.1, ((s.low_q + s.high_q) / 2) :: r.2)
    else (s, [])

/-- The state of the run after at most `n` loop iterations (the run's
state trace: for `n` past the loop's natural end the state no longer
changes). -/
def stateAt (build : Int → Nat) (target_bytes : Nat) (max_iters : Nat) (n : Nat) : SearchState :=
  (searchGo build target_bytes max_iters n initState).1

/-- The final `SearchState` of one run of the search (lines 84-112). -/
def search (build : Int → Nat) (target_bytes : Nat) (max_iters : Nat) : SearchState :=
  stateAt build target_bytes max_iters max_iters

/-- The qualities probed (= builder invocations, line 98) during one run,
in order. -/
def probes (build : Int → Nat) (target_bytes : Nat) (max_iters : Nat) : List Int :=
  (searchGo build target_bytes max_iters max_iters initState).2

/-- The default `max_iters=8` of `compress_pdf_to_size` (line 65). -/
def default_max_iters : Nat := 8

/-- The selection outcome: replace the original file with a candidate's
bytes, or keep the original unchanged (the early `return` on line 130). -/
inductive Outcome where
  | Replace : Candidate → Outcome
  | Keep : Outcome
deriving Repr, DecidableEq

/-- Lines 116-124: `chosen_bytes`/`chosen_size` — `best_under` if
present, else `best_over`, else nothing. -/
def chosen (s : SearchState) : Option Candidate :=
  match s.best_under with
  | some c => some c
  | none => s.best_over

/-- Lines 116-130: the selection policy.  `if chosen_bytes is None or
chosen_size >= original_size: return` (keep the original, line 127);
otherwise the chosen candidate is written out. -/
def select (s : SearchState) (original_size : Nat) : Outcome :=
  match chosen s with
  | none => Outcome.Keep
  | some c => if original_size ≤ c.size then Outcome.Keep else Outcome.Replace c

/-- The deterministic builder `size(q) = 1000 + 50*q` of the spec's
preference-order test (§8). -/
def specBuilderAffine : Int → Nat := fun q => (1000 + 50 * q).toNat

/-- The deterministic builder `size(q) = 100*q` of the spec's
preference-order test (§8). -/
def specBuilderLinear : Int → Nat := fun q => (100 * q).toNat

/-! ### Equation lemmas for the loop -/

theorem searchGo_stop (build : Int → Nat) (target mi fuel : Nat) (s : SearchState)
    (h : ¬(s.low_q ≤ s.high_q ∧ s.iterations < mi)) :
    searchGo build target mi fuel s = (s, []) := by
  cases fuel with
  | zero => rfl
  | succ fuel => simp [searchGo, h]

theorem searchGo_succ (build : Int → Nat) (target mi fuel : Nat) (s : SearchState)
    (h : s.low_q ≤ s.high_q ∧ s.iterations < mi) :
    searchGo build target mi (fuel + 1) s =
      ((searchGo build target mi fuel (searchStep build target s)).1,
        ((s.low_q + s.high_q) / 2) ::
          (searchGo build target mi fuel (searchStep build target s)).2) := by
  simp [searchGo, h]

/-! ### One-step lemmas -/

/-- One loop iteration moves `low_q` up or `high_q` down, increments
`iterations`, and changes a best slot only per its strict comparator
(lines 103-112). -/
theorem searchStep_mono (build : Int → Nat) (target : Nat) (s : SearchState)
    (h : s.low_q ≤ s.high_q) :
    s.low_q ≤ (searchStep build target s).low_q ∧
    (searchStep build target s).high_q ≤ s.high_q ∧
    s.iterations ≤ (searchStep build target s).iterations ∧
    ((searchStep build target s).best_under ≠ s.best_under →
      ∃ c, (searchStep build target s).best_under = some c ∧
        c.size ≤ target ∧ bestUnderSize s < c.size) ∧
    ((searchStep build target s).best_over ≠ s.best_over →
      ∃ c, (searchStep build target s).best_over = some c ∧
        target < c.size ∧ ∀ c₀, s.best_over = some c₀ → c.size < c₀.size) := by
  have hq₁ : s.low_q ≤ (s.low_q + s.high_q) / 2 := by omega
  have hq₂ : (s.low_q + s.high_q) / 2 ≤ s.high_q := by omega
  by_cases hf : build ((s.low_q + s.high_q) / 2) ≤ target
  · -- feasible branch, lines 103-107
    refine ⟨?_, ?_, ?_, ?_, ?_⟩
    · simp only [searchStep, if_pos hf]
      omega
    · simp only [searchStep, if_pos hf]
      exact le_refl _
    · simp only [searchStep, if_pos hf]
      omega
    · intro hne
      simp only [searchStep, if_pos hf] at hne ⊢
      by_cases hb : bestUnderSize s < build ((s.low_q + s.high_q) / 2)
      · refine ⟨⟨(s.low_q + s.high_q) / 2, build ((s.low_q + s.high_q) / 2)⟩, ?_, hf, hb⟩
        simp [hb]
      · simp [hb] at hne
    · intro hne
      simp only [searchStep, if_pos hf] at hne
      exact absurd rfl hne
  · -- infeasible branch, lines 108-112
    refine ⟨?_, ?_, ?_, ?_, ?_⟩
    · simp only [searchStep, if_neg hf]
      exact le_refl _
    · simp only [searchStep, if_neg hf]
      omega
    · simp only [searchStep, if_neg hf]
      omega
    · intro hne
      simp only [searchStep, if_neg hf] at hne
      exact absurd rfl hne
    · intro hne
      simp only [searchStep, if_neg hf] at hne ⊢
      cases ho : s.best_over with
      | none =>
        refine ⟨⟨(s.low_q + s.high_q) / 2, build ((s.low_q + s.high_q) / 2)⟩, ?_,
          Nat.lt_of_not_le hf, ?_⟩
        · simp [ho]
        · intro c₀ hc₀
          exact absurd hc₀ (by simp)
      | some c₀ =>
        by_cases hb : build ((s.low_q + s.high_q) / 2) < c₀.size
        · refine ⟨⟨(s.low_q + s.high_q) / 2, build ((s.low_q + s.high_q) / 2)⟩, ?_,
            Nat.lt_of_not_le hf, ?_⟩
          · simp [ho, hb]
          · intro c₁ hc₁
            injection hc₁ with hc₁
            subst hc₁
            exact hb
        · rw [ho] at hne
          simp [hb] at hne

/-- One loop iteration keeps the feasibility partition of the two best
slots (lines 103-112): a slot is written only with the candidate just
measured, on the side of `target_bytes` its branch established. -/
theorem searchStep_feas (build : Int → Nat) (target : Nat) (s : SearchState)
    (hu : ∀ c, s.best_under = some c → c.size ≤ target)
    (ho : ∀ c, s.best_over = some c → target < c.size) :
    (∀ c, (searchStep build target s).best_under = some c → c.size ≤ target) ∧
    (∀ c, (searchStep build target s).best_over = some c → target < c.size) := by
  by_cases hf : build ((s.low_q + s.high_q) / 2) ≤ target
  · constructor <;> intro c hc <;> simp only [searchStep, if_pos hf] at hc
    · by_cases hb : bestUnderSize s < build ((s.low_q + s.high_q) / 2)
      · rw [if_pos hb] at hc
        injection hc with hc
        subst hc
        exact hf
      · rw [if_neg hb] at hc
        exact hu c hc
    · exact ho c hc
  · constructor <;> intro c hc <;> simp only [searchStep, if_neg hf] at hc
    · exact hu c hc
    · cases hov : s.best_over with
      | none =>
        rw [hov] at hc
        injection hc with hc
        subst hc
        exact Nat.lt_of_not_le hf
      | some c₀ =>
        rw [hov] at hc
        by_cases hb : build ((s.low_q + s.high_q) / 2) < c₀.size
        · simp only [hb, if_true] at hc
          injection hc with hc
          subst hc
          exact Nat.lt_of_not_le hf
        · simp only [hb, if_false] at hc
          injection hc with hc
          subst hc
          exact ho c₀ hov

/-- The loop keeps the feasibility partition from any starting state. -/
theorem searchGo_feas (build : Int → Nat) (target mi : Nat) :
    ∀ fuel s,
      (∀ c, s.best_under = some c → c.size ≤ target) →
      (∀ c, s.best_over = some c → target < c.size) →
      (∀ c, (searchGo build target mi fuel s).1.best_under = some c → c.size ≤ target) ∧
      (∀ c, (searchGo build target mi fuel s).1.best_over = some c → target < c.size) := by
  intro fuel
  induction fuel with
  | zero => intro s hu ho; exact ⟨hu, ho⟩
  | succ fuel ih =>
    intro s hu ho
    by_cases hg : s.low_q ≤ s.high_q ∧ s.iterations < mi
    · rw [searchGo_succ build target mi fuel s hg]
      obtain ⟨hu', ho'⟩ := searchStep_feas build target s hu ho
      exact ih (searchStep build target s) hu' ho'
    · rw [searchGo_stop build target mi (fuel + 1) s hg]
      exact ⟨hu, ho⟩

/-- C3. Feasibility partition: at every point of every run (any builder,
any state `stateAt build target mi n` of the run's trace, the final
state included), a recorded `best_under` has `size ≤ target_bytes` and a
recorded `best_over` has `size > target_bytes` (lines 103-112). -/
theorem feasibility_partition (build : Int → Nat) (target mi n : Nat) :
    (∀ c, (stateAt build target mi n).best_under = some c → c.size ≤ target) ∧
    (∀ c, (stateAt build target mi n).best_over = some c → target < c.size) := by
  unfold stateAt
  exact searchGo_feas build target mi n initState
    (by intro c hc; exact absurd hc (by simp [initState]))
    (by intro c hc; exact absurd hc (by simp [initState]))

/-- Between the loop's `n`-th and `(n+1)`-th state from any start, the
bounds and counters move monotonically and the best slots change only
per their strict comparators. -/
theorem searchGo_consec (build : Int → Nat) (target mi : Nat) :
    ∀ (n : Nat) (s : SearchState),
      (searchGo build target mi n s).1.low_q ≤ (searchGo build target mi (n + 1) s).1.low_q ∧
      (searchGo build target mi (n + 1) s).1.high_q ≤ (searchGo build target mi n s).1.high_q ∧
      (searchGo build target mi n s).1.iterations ≤
        (searchGo build target mi (n + 1) s).1.iterations ∧
      ((searchGo build target mi (n + 1) s).1.best_under ≠
          (searchGo build target mi n s).1.best_under →
        ∃ c, (searchGo build target mi (n + 1) s).1.best_under = some c ∧
          c.size ≤ target ∧ bestUnderSize (searchGo build target mi n s).1 < c.size) ∧
      ((searchGo build target mi (n + 1) s).1.best_over ≠
          (searchGo build target mi n s).1.best_over →
        ∃ c, (searchGo build target mi (n + 1) s).1.best_over = some c ∧
          target < c.size ∧
          ∀ c₀, (searchGo build target mi n s).1.best_over = some c₀ → c.size < c₀.size) := by
  intro n
  induction n with
  | zero =>
    intro s
    by_cases hg : s.low_q ≤ s.high_q ∧ s.iterations < mi
    · rw [searchGo_succ build target mi 0 s hg]
      have h0 : searchGo build target mi 0 s = (s, []) := rfl
      rw [h0]
      simpa using searchStep_mono build target s hg.1
    · rw [searchGo_stop build target mi 1 s hg]
      have h0 : searchGo build target mi 0 s = (s, []) := rfl
      rw [h0]
      refine ⟨le_refl _, le_refl _, le_refl _, ?_, ?_⟩ <;>
        exact fun hne => absurd rfl hne
  | succ n ih =>
    intro s
    by_cases hg : s.low_q ≤ s.high_q ∧ s.iterations < mi
    · rw [searchGo_succ build target mi (n + 1) s hg,
        searchGo_succ build target mi n s hg]
      exact ih (searchStep build target s)
    · rw [searchGo_stop build target mi (n + 2) s hg,
        searchGo_stop build target mi (n + 1) s hg]
      refine ⟨le_refl _, le_refl _, le_refl _, ?_, ?_⟩ <;>
        exact fun hne => absurd rfl hne

/-- C4. Monotone state evolution: between any state of a run's trace and
the next, `low_q` never decreases, `high_q` never increases,
`iterations` never decreases; `best_under` changes only to a feasible
candidate strictly larger than the previously recorded size (strict `>`
on line 104: ties keep the earliest), and `best_over` changes only to an
infeasible candidate strictly smaller than the previously recorded one
(strict `<` on line 109: the first seen wins ties). -/
theorem search_state_monotone (build : Int → Nat) (target mi n : Nat) :
    (stateAt build target mi n).low_q ≤ (stateAt build target mi (n + 1)).low_q ∧
    (stateAt build target mi (n + 1)).high_q ≤ (stateAt build target mi n).high_q ∧
    (stateAt build target mi n).iterations ≤ (stateAt build target mi (n + 1)).iterations ∧
    ((stateAt build target mi (n + 1)).best_under ≠ (stateAt build target mi n).best_under →
      ∃ c, (stateAt build target mi (n + 1)).best_under = some c ∧
        c.size ≤ target ∧ bestUnderSize (stateAt build target mi n) < c.size) ∧
    ((stateAt build target mi (n + 1)).best_over ≠ (stateAt build target mi n).best_over →
      ∃ c, (stateAt build target mi (n + 1)).best_over = some c ∧
        target < c.size ∧
        ∀ c₀, (stateAt build target mi n).best_over = some c₀ → c.size < c₀.size) := by
  unfold stateAt
  exact searchGo_consec build target mi n initState

/-! ### Probe domain and probe count -/

/-- A probed quality is excluded from the bounds the step leaves behind:
`low_q = q + 1` after a feasible probe (line 107), `high_q = q - 1`
after an infeasible one (line 112). -/
theorem searchStep_excludes_probe (build : Int → Nat) (target : Nat) (s : SearchState) :
    ¬((searchStep build target s).low_q ≤ (s.low_q + s.high_q) / 2 ∧
      (s.low_q + s.high_q) / 2 ≤ (searchStep build target s).high_q) := by
  by_cases hf : build ((s.low_q + s.high_q) / 2) ≤ target <;>
    simp only [searchStep, if_pos, if_neg, hf, ite_true, ite_false] <;> omega

/-- Every quality probed by the loop started at `s` lies within `s`'s
bounds. -/
theorem searchGo_probes_bounds (build : Int → Nat) (target mi : Nat) :
    ∀ (fuel : Nat) (s : SearchState) (q : Int),
      q ∈ (searchGo build target mi fuel s).2 → s.low_q ≤ q ∧ q ≤ s.high_q := by
  intro fuel
  induction fuel with
  | zero => intro s q hq; exact absurd hq (by simp [searchGo])
  | succ fuel ih =>
    intro s q hq
    by_cases hg : s.low_q ≤ s.high_q ∧ s.iterations < mi
    · rw [searchGo_succ build target mi fuel s hg] at hq
      rcases List.mem_cons.mp hq with hq | hq
      · subst hq
        constructor <;> omega
      · have hb := ih (searchStep build target s) q hq
        have hm := searchStep_mono build target s hg.1
        exact ⟨le_trans hm.1 hb.1, le_trans hb.2 hm.2.1⟩
    · rw [searchGo_stop build target mi (fuel + 1) s hg] at hq
      exact absurd hq (by simp)

/-- The loop never probes the same quality twice: once probed, a
quality is outside the narrowed bounds, and all later probes are within
them. -/
theorem searchGo_probes_nodup (build : Int → Nat) (target mi : Nat) :
    ∀ (fuel : Nat) (s : SearchState), (searchGo build target mi fuel s).2.Nodup := by
  intro fuel
  induction fuel with
  | zero => intro s; simp [searchGo]
  | succ fuel ih =>
    intro s
    by_cases hg : s.low_q ≤ s.high_q ∧ s.iterations < mi
    · rw [searchGo_succ build target mi fuel s hg]
      refine List.nodup_cons.mpr ⟨?_, ih (searchStep build target s)⟩
      intro hmem
      exact searchStep_excludes_probe build target s
        (searchGo_probes_bounds build target mi fuel (searchStep build target s) _ hmem)
    · rw [searchGo_stop build target mi (fuel + 1) s hg]
      simp

/-- C5. Probe discipline: every probe made from a state lies within that
state's bounds; in a real run (started at `[10, 95]`) every probed
quality therefore lies in `[10, 95]`; and no quality is ever probed
twice (the probe list has no duplicates), since each probe is excluded
by the narrowing the step performs (lines 84, 94, 107, 112). -/
theorem probe_domain_nodup (build : Int → Nat) (target mi : Nat) :
    (∀ (fuel : Nat) (s : SearchState) (q : Int),
      q ∈ (searchGo build target mi fuel s).2 → s.low_q ≤ q ∧ q ≤ s.high_q) ∧
    (∀ q ∈ probes build target mi, 10 ≤ q ∧ q ≤ 95) ∧
    (probes build target mi).Nodup := by
  refine ⟨searchGo_probes_bounds build target mi, ?_, ?_⟩
  · intro q hq
    exact searchGo_probes_bounds build target mi mi initState q hq
  · exact searchGo_probes_nodup build target mi mi initState

/-- The loop makes at most `max_iters - iterations` more probes: each
pass requires `iterations < max_iters` and increments `iterations`. -/
theorem searchGo_length_le (build : Int → Nat) (target mi : Nat) :
    ∀ (fuel : Nat) (s : SearchState),
      s.iterations + (searchGo build target mi fuel s).2.length ≤ max mi s.iterations := by
  intro fuel
  induction fuel with
  | zero => intro s; simp [searchGo]
  | succ fuel ih =>
    intro s
    by_cases hg : s.low_q ≤ s.high_q ∧ s.iterations < mi
    · rw [searchGo_succ build target mi fuel s hg]
      have := ih (searchStep build target s)
      have hit : (searchStep build target s).iterations = s.iterations + 1 := by
        by_cases hf : build ((s.low_q + s.high_q) / 2) ≤ target <;>
          simp [searchStep, hf]
      rw [hit] at this
      simp only [List.length_cons]
      omega
    · rw [searchGo_stop build target mi (fuel + 1) s hg]
      simp

/-- The final iteration count is the start's plus the number of probes
(line 95 increments once per pass). -/
theorem searchGo_iterations_eq (build : Int → Nat) (target mi : Nat) :
    ∀ (fuel : Nat) (s : SearchState),
      (searchGo build target mi fuel s).1.iterations =
        s.iterations + (searchGo build target mi fuel s).2.length := by
  intro fuel
  induction fuel with
  | zero => intro s; simp [searchGo]
  | succ fuel ih =>
    intro s
    by_cases hg : s.low_q ≤ s.high_q ∧ s.iterations < mi
    · rw [searchGo_succ build target mi fuel s hg]
      have := ih (searchStep build target s)
      have hit : (searchStep build target s).iterations = s.iterations + 1 := by
        by_cases hf : build ((s.low_q + s.high_q) / 2) ≤ target <;>
          simp [searchStep, hf]
      rw [hit] at this
      simp only [List.length_cons]
      omega
    · rw [searchGo_stop build target mi (fuel + 1) s hg]
      simp

/-- The number of integers remaining in the quality interval. -/
def intervalLen (s : SearchState) : Nat := (s.high_q + 1 - s.low_q).toNat

/-- One step at least roughly halves the interval, and removes no more
than that: `⌊(n-1)/2⌋ ≤ n' ≤ ⌊n/2⌋`. -/
theorem searchStep_intervalLen (build : Int → Nat) (target : Nat) (s : SearchState)
    (h : s.low_q ≤ s.high_q) :
    (intervalLen s - 1) / 2 ≤ intervalLen (searchStep build target s) ∧
    intervalLen (searchStep build target s) ≤ intervalLen s / 2 := by
  by_cases hf : build ((s.low_q + s.high_q) / 2) ≤ target <;>
    simp only [searchStep, if_pos, if_neg, hf, ite_true, ite_false] <;>
    unfold intervalLen <;> constructor <;> simp only [] <;> omega

/-- If the interval fits below `2^k`, the loop makes at most `k` more
probes. -/
theorem searchGo_length_le_log (build : Int → Nat) (target mi : Nat) :
    ∀ (k fuel : Nat) (s : SearchState), intervalLen s ≤ 2 ^ k - 1 →
      (searchGo build target mi fuel s).2.length ≤ k := by
  intro k
  induction k with
  | zero =>
    intro fuel s hs
    have hcross : ¬(s.low_q ≤ s.high_q ∧ s.iterations < mi) := by
      unfold intervalLen at hs
      simp at hs
      intro hg
      omega
    rw [searchGo_stop build target mi fuel s hcross]
    simp
  | succ k ih =>
    intro fuel s hs
    cases fuel with
    | zero => simp [searchGo]
    | succ fuel =>
      by_cases hg : s.low_q ≤ s.high_q ∧ s.iterations < mi
      · rw [searchGo_succ build target mi fuel s hg]
        simp only [List.length_cons]
        have hstep := (searchStep_intervalLen build target s hg.1).2
        have hpow : (2 : Nat) ^ (k + 1) = 2 * 2 ^ k := by ring
        have : intervalLen (searchStep build target s) ≤ 2 ^ k - 1 := by omega
        have := ih fuel (searchStep build target s) this
        omega
      · rw [searchGo_stop build target mi (fuel + 1) s hg]
        simp

/-- If the interval still holds at least `2^k - 1` values and the cap
allows `k` more passes, the loop makes at least `k` more probes. -/
theorem searchGo_length_ge (build : Int → Nat) (target mi : Nat) :
    ∀ (k fuel : Nat) (s : SearchState), k ≤ fuel → s.iterations + k ≤ mi →
      2 ^ k ≤ intervalLen s + 1 →
      k ≤ (searchGo build target mi fuel s).2.length := by
  intro k
  induction k with
  | zero => intro fuel s _ _ _; simp
  | succ k ih =>
    intro fuel s hfuel hit hlen
    cases fuel with
    | zero => omega
    | succ fuel =>
      have hpow : (2 : Nat) ^ (k + 1) = 2 * 2 ^ k := by ring
      have hkpos : 1 ≤ 2 ^ k := Nat.one_le_two_pow
      have hg : s.low_q ≤ s.high_q ∧ s.iterations < mi := by
        constructor
        · unfold intervalLen at hlen
          omega
        · omega
      rw [searchGo_succ build target mi fuel s hg]
      simp only [List.length_cons]
      have hstep := (searchStep_intervalLen build target s hg.1).1
      have hit' : (searchStep build target s).iterations = s.iterations + 1 := by
        by_cases hf : build ((s.low_q + s.high_q) / 2) ≤ target <;>
          simp [searchStep, hf]
      have hrec := ih fuel (searchStep build target s) (by omega) (by omega)
        (by omega)
      omega

/-- C6. Iteration cap: every run makes at most `max_iters` builder
invocations (probe-list length ≤ `max_iters`), and with
`max_iters = 3` exactly 3 builder invocations happen for every builder
and every target (the 86-value interval cannot be exhausted in under 3
probes). -/
theorem iteration_cap (build : Int → Nat) (target mi : Nat) :
    (probes build target mi).length ≤ mi ∧
    (probes build target 3).length = 3 := by
  constructor
  · unfold probes
    have h := searchGo_length_le build target mi mi initState
    have h0 : initState.iterations = 0 := rfl
    rw [h0] at h
    omega
  · unfold probes
    have hle := searchGo_length_le build target 3 3 initState
    have h0 : initState.iterations = 0 := rfl
    rw [h0] at hle
    have hge := searchGo_length_ge build target 3 3 3 initState (le_refl 3)
      (by decide) (by decide)
    omega

/-- C1. Selection policy (lines 116-130): `chosen` is `best_under` when
present and otherwise `best_over`; an empty choice yields `Keep`; a
chosen candidate no smaller than the original yields `Keep`; and any
`Replace` outcome carries the chosen candidate with size strictly below
the original's. -/
theorem selection_policy_correct (s : SearchState) (original_size : Nat) :
    (∀ c, s.best_under = some c → chosen s = some c) ∧
    (s.best_under = none → chosen s = s.best_over) ∧
    (chosen s = none → select s original_size = Outcome.Keep) ∧
    (∀ c, chosen s = some c → original_size ≤ c.size →
      select s original_size = Outcome.Keep) ∧
    (∀ c, select s original_size = Outcome.Replace c →
      chosen s = some c ∧ c.size < original_size) := by
  refine ⟨?_, ?_, ?_, ?_, ?_⟩
  · intro c h
    simp [chosen, h]
  · intro h
    simp [chosen, h]
  · intro h
    simp [select, h]
  · intro c h hge
    simp [select, h, hge]
  · intro c h
    cases hc : chosen s with
    | none => simp [select, hc] at h
    | some c₀ =>
      simp only [select, hc] at h
      by_cases hge : original_size ≤ c₀.size
      · simp [hge] at h
      · rw [if_neg hge] at h
        have : c₀ = c := by injection h
        subst this
        exact ⟨rfl, Nat.lt_of_not_le hge⟩

/-- C2 counterexample. With `size(q) = 1000 + 50*q` and target `4000`
(default cap 8), the run's `best_under` is the candidate at quality 60
of size 4000; quality 60 is feasible, so 59 is not the largest feasible
quality and the claim's stated convergence point `q = 59` is false. -/
theorem preference_order_counterexample :
    (search specBuilderAffine 4000 default_max_iters).best_under = some ⟨60, 4000⟩ ∧
    specBuilderAffine 60 ≤ 4000 ∧ (59 : Int) < 60 := by
  refine ⟨by decide, by decide, by decide⟩

/-- C2 amended. With `size(q) = 1000 + 50*q` and target `4000` the
search converges to the largest feasible quality, which is `q = 60`
(size exactly 4000), not 59; and with `size(q) = 100*q` and target
`5000` the chosen candidate is `q = 50` of size 5000. -/
theorem preference_order_amended :
    (search specBuilderAffine 4000 default_max_iters).best_under = some ⟨60, 4000⟩ ∧
    (∀ q : Int, 10 ≤ q → q ≤ 95 → specBuilderAffine q ≤ 4000 → q ≤ 60) ∧
    chosen (search specBuilderLinear 5000 default_max_iters) = some ⟨50, 5000⟩ := by
  refine ⟨by decide, ?_, by decide⟩
  intro q h10 h95 hle
  unfold specBuilderAffine at hle
  omega

/-! ### Infeasible runs, the Keep branch, and the builder on empty input -/

/-- When every probe misses the target, the loop never writes
`best_under` (line 103's test fails every pass). -/
theorem searchGo_best_under_stable (build : Int → Nat) (target mi : Nat)
    (hall : ∀ q, target < build q) :
    ∀ (fuel : Nat) (s : SearchState),
      (searchGo build target mi fuel s).1.best_under = s.best_under := by
  intro fuel
  induction fuel with
  | zero => intro s; rfl
  | succ fuel ih =>
    intro s
    by_cases hg : s.low_q ≤ s.high_q ∧ s.iterations < mi
    · rw [searchGo_succ build target mi fuel s hg]
      rw [ih (searchStep build target s)]
      have hf : ¬build ((s.low_q + s.high_q) / 2) ≤ target :=
        Nat.not_le_of_lt (hall _)
      simp [searchStep, hf]
    · rw [searchGo_stop build target mi (fuel + 1) s hg]

/-- C7. No exception on normal infeasibility: the search and selection
are total functions (the embedding returns an `Outcome` for every
input, mirroring a body with no `raise`), and when no probed candidate
can meet the target the run ends with `best_under` empty and selection
falls through to `best_over` — a `Replace` strictly smaller than the
original — or to `Keep`, never an error (lines 103-130). -/
theorem infeasible_falls_through (build : Int → Nat) (target mi original_size : Nat)
    (hall : ∀ q, target < build q) :
    (search build target mi).best_under = none ∧
    (select (search build target mi) original_size = Outcome.Keep ∨
      ∃ c, select (search build target mi) original_size = Outcome.Replace c ∧
        (search build target mi).best_over = some c ∧ c.size < original_size) := by
  have hbu : (search build target mi).best_under = none := by
    have := searchGo_best_under_stable build target mi hall mi initState
    unfold search stateAt
    rw [this]
    rfl
  refine ⟨hbu, ?_⟩
  have hch : chosen (search build target mi) = (search build target mi).best_over := by
    unfold chosen
    rw [hbu]
  cases hbo : (search build target mi).best_over with
  | none =>
    left
    unfold select
    rw [hch, hbo]
  | some c =>
    by_cases hge : original_size ≤ c.size
    · left
      unfold select
      rw [hch, hbo]
      simp [hge]
    · right
      refine ⟨c, ?_, rfl, Nat.lt_of_not_le hge⟩
      unfold select
      rw [hch, hbo]
      simp [hge]

/-- C7 witness: a constant builder of size 101 against target 100 never
meets the target; the run keeps `best_under` empty and selection falls
through without error. -/
theorem infeasible_falls_through_witness :
    (search (fun _ => 101) 100 8).best_under = none ∧
    (select (search (fun _ => 101) 100 8) 102 = Outcome.Keep ∨
      ∃ c, select (search (fun _ => 101) 100 8) 102 = Outcome.Replace c ∧
        (search (fun _ => 101) 100 8).best_over = some c ∧ c.size < 102) :=
  infeasible_falls_through (fun _ => 101) 100 8 102
    (fun _ => by show (100 : Nat) < 101; decide)

/-- The per-file pipeline of `compress_pdf_to_size` with the
filesystem made explicit: `file : α` is the input file's on-disk state,
`getsize` is `os.path.getsize` (line 76), `builder file` is the
candidate builder rendering from that file's document, and `write` is
the write-back on lines 143-144 (the overwrite-in-place destination of
line 139).  The `Keep` branch is the early `return` on line 130: it
happens before any write, so the file state is returned untouched. -/
def compress_pdf_to_size {α : Type} (getsize : α → Nat) (builder : α → Int → Nat)
    (write : α → Candidate → α) (target_bytes max_iters : Nat) (file : α) :
    Outcome × α :=
  match select (search (builder file) target_bytes max_iters) (getsize file) with
  | Outcome.Keep => (Outcome.Keep, file)
  | Outcome.Replace c => (Outcome.Replace c, write file c)

/-- C8. Idempotence of Keep: a run that ends in `Keep` leaves the file
exactly as it was (the `return` on line 130 precedes every write), so
running the whole pipeline again from the resulting state reproduces
the identical outcome. -/
theorem keep_idempotent {α : Type} (getsize : α → Nat) (builder : α → Int → Nat)
    (write : α → Candidate → α) (target_bytes max_iters : Nat) (file : α)
    (h : (compress_pdf_to_size getsize builder write target_bytes max_iters file).1 =
      Outcome.Keep) :
    (compress_pdf_to_size getsize builder write target_bytes max_iters file).2 = file ∧
    compress_pdf_to_size getsize builder write target_bytes max_iters
        ((compress_pdf_to_size getsize builder write target_bytes max_iters file).2) =
      compress_pdf_to_size getsize builder write target_bytes max_iters file := by
  have hun : (compress_pdf_to_size getsize builder write target_bytes max_iters file).2 =
      file := by
    unfold compress_pdf_to_size at h ⊢
    cases hsel : select (search (builder file) target_bytes max_iters) (getsize file) with
    | Keep => rfl
    | Replace c =>
      rw [hsel] at h
      simp at h
  exact ⟨hun, by rw [hun]⟩

/-- C8 witness: with an all-infeasible builder whose candidates are
larger than the 5-byte original, the run keeps the original; the theorem
applies and the file state is unchanged through a repeated run. -/
theorem keep_idempotent_witness :
    (compress_pdf_to_size (fun n => n) (fun _ _ => 101) (fun _ c => c.size) 100 8 5).2 = 5 ∧
    compress_pdf_to_size (fun n => n) (fun _ _ => 101) (fun _ c => c.size) 100 8
        ((compress_pdf_to_size (fun n => n) (fun _ _ => 101) (fun _ c => c.size) 100 8 5).2) =
      compress_pdf_to_size (fun n => n) (fun _ _ => 101) (fun _ c => c.size) 100 8 5 :=
  keep_idempotent (fun n => n) (fun _ _ => 101) (fun _ c => c.size) 100 8 5 (by decide)

/-- `build_flattened_pdf`'s page loop (lines 51-58): render and encode
each page in order through the external rasterize-and-encode
collaborator (`page.get_pixmap` + `pixmap_to_jpeg_bytes` +
`insert_image`), which may fail per page; the resulting page images, in
document order. -/
def renderPages {Page Img : Type} (renderPage : Page → Except String Img) :
    List Page → Except String (List Img)
  | [] => Except.ok []
  | p :: ps => do
    let img ← renderPage p
    let rest ← renderPages renderPage ps
    pure (img :: rest)

/-- `build_flattened_pdf(doc, quality, dpi)` (lines 43-62): start from a
fresh empty output document (`fitz.open()`, line 49), add one image page
per input page, and serialise (`out.tobytes()`, line 60).  The
serialiser is the external library collaborator of spec §6; like the
per-page rendering it can raise, so it is modelled as a fallible
function of the accumulated page list. -/
def build_flattened_pdf {Page Img PdfBytes : Type}
    (renderPage : Page → Except String Img)
    (tobytes : List Img → Except String PdfBytes)
    (doc : List Page) : Except String PdfBytes :=
  (renderPages renderPage doc).bind tobytes

/-- The serialiser the source actually calls on line 60: PyMuPDF's
`Document.tobytes`, which raises `ValueError: cannot save with zero
pages` when the document has no pages and otherwise produces the byte
serialisation (abstract here, via `serialize`). -/
def pymupdf_tobytes {Img PdfBytes : Type} (serialize : List Img → PdfBytes)
    (imgs : List Img) : Except String PdfBytes :=
  match imgs with
  | [] => Except.error "cannot save with zero pages"
  | _ => Except.ok (serialize imgs)

/-- C9 failing input, evaluated: on a zero-page document the page loop
of lines 51-58 runs no iteration, the output document built from
`fitz.open()` still has zero pages, and the `out.tobytes()` call on
line 60 raises — so `build_flattened_pdf` fails instead of returning a
valid, near-empty output, whatever the page renderer does. -/
theorem zero_page_builder_fails {Page Img PdfBytes : Type}
    (renderPage : Page → Except String Img) (serialize : List Img → PdfBytes) :
    build_flattened_pdf renderPage (pymupdf_tobytes serialize) ([] : List Page) =
      Except.error "cannot save with zero pages" := rfl

/-- When the remaining fuel covers the cap, the loop runs to its real
end: the final state fails the `while` condition of line 93. -/
theorem searchGo_final_guard (build : Int → Nat) (target mi : Nat) :
    ∀ (fuel : Nat) (s : SearchState), mi ≤ fuel + s.iterations →
      ¬((searchGo build target mi fuel s).1.low_q ≤
          (searchGo build target mi fuel s).1.high_q ∧
        (searchGo build target mi fuel s).1.iterations < mi) := by
  intro fuel
  induction fuel with
  | zero =>
    intro s hs
    show ¬(s.low_q ≤ s.high_q ∧ s.iterations < mi)
    intro hg
    omega
  | succ fuel ih =>
    intro s hs
    by_cases hg : s.low_q ≤ s.high_q ∧ s.iterations < mi
    · rw [searchGo_succ build target mi fuel s hg]
      refine ih (searchStep build target s) ?_
      have hit : (searchStep build target s).iterations = s.iterations + 1 := by
        by_cases hf : build ((s.low_q + s.high_q) / 2) ≤ target <;>
          simp [searchStep, hf]
      omega
    · rw [searchGo_stop build target mi (fuel + 1) s hg]
      exact hg

/-- C10. With the source's default `max_iters = 8` (line 65), the
86-value interval `[10, 95]` is exhausted within 7 probes for every
builder and target (`86 ≤ 2^7 - 1`), so the final state has at most 7
iterations and its bounds crossed: the iteration cap is never the
condition that ends the loop. -/
theorem bounds_cross_within_seven (build : Int → Nat) (target : Nat) :
    (probes build target default_max_iters).length ≤ 7 ∧
    (search build target default_max_iters).iterations ≤ 7 ∧
    (search build target default_max_iters).high_q <
      (search build target default_max_iters).low_q := by
  have hlen : (probes build target default_max_iters).length ≤ 7 := by
    unfold probes
    exact searchGo_length_le_log build target default_max_iters 7
      default_max_iters initState (by decide)
  have hiter : (search build target default_max_iters).iterations ≤ 7 := by
    unfold search stateAt
    have := searchGo_iterations_eq build target default_max_iters
      default_max_iters initState
    have h0 : initState.iterations = 0 := rfl
    rw [h0] at this
    unfold probes at hlen
    omega
  refine ⟨hlen, hiter, ?_⟩
  have hguard := searchGo_final_guard build target default_max_iters
    default_max_iters initState (by decide)
  have hlt : (search build target default_max_iters).iterations < default_max_iters := by
    have h8 : default_max_iters = 8 := rfl
    omega
  unfold search stateAt at hlt ⊢
  have hnb : ¬((searchGo build target default_max_iters default_max_iters initState).1.low_q ≤
      (searchGo build target default_max_iters default_max_iters initState).1.high_q) :=
    fun hle => hguard ⟨hle, hlt⟩
  omega
